import Mathlib

/-!
# SVGStreamGraph: the enrollment pivot and the streamgraph geometry

A shallow embedding of `ad_cse3.js`: `loadAndProcessData` (cleaning, Term Set,
Department Set, `d3.rollup` aggregation, pivoted rows) and the numeric part of
`drawStreamgraph` (`d3.stack` with the wiggle offset, the vertical scale's
domain, the point scale and the hover handler's nearest-Term lookup).

Modelling conventions.

* A JavaScript string is the list of its UTF-16 code units, so that the default
  string ordering (code unit by code unit) is the lexicographic order of lists.
* A JavaScript number is `NaN`, `+Infinity`, `-Infinity` or a finite value, and a
  finite value is its exact rational value: IEEE-754 rounding is not modelled
  (it is exact on the integers below `2^53` that enrollment counts are), and
  `-0` is identified with `0` (both are falsy and `SameValueZero`-equal).
* A cell of the `Term` or `Department` column is text or absent
  (`Option JSString`, `none` being `undefined`); a `Student_Count` cell is any
  primitive value.
* An object is the association list of its own properties in insertion order.
* The library functions (`Set`, `Array.prototype.sort`, `d3.rollup`, `d3.sum`,
  `d3.stack`, `d3.stackOffsetWiggle`, `d3.min`, `d3.max`, `d3.scalePoint`,
  `d3.scaleLinear`, `Math.round`) are transcribed from their definitions.
-/

set_option autoImplicit false

namespace SVGStreamGraph

/-! ## JavaScript values -/

/-- A JavaScript string, as its UTF-16 code units. -/
abbrev JSString := List Nat

/-- UTF-16 code units of one character. -/
def utf16Char (c : Char) : List Nat :=
  if c.toNat < 65536 then [c.toNat]
  else [55296 + (c.toNat - 65536) / 1024, 56320 + (c.toNat - 65536) % 1024]

/-- The JavaScript string written by a string literal. -/
def utf16 (s : String) : JSString :=
  s.toList.flatMap utf16Char

/-- A JavaScript number: `NaN`, a finite value, or an infinity (`neg` for `-Infinity`). -/
inductive JSNum where
  | nan
  | fin (q : ℚ)
  | inf (neg : Bool)
  deriving DecidableEq

/-- A JavaScript primitive value. -/
inductive JSVal where
  | undefined
  | null
  | bool (b : Bool)
  | num (x : JSNum)
  | str (s : JSString)
  deriving DecidableEq

namespace JSNum

/-- ToBoolean of a number: false exactly for `0` and `NaN`. -/
def truthy : JSNum → Bool
  | nan => false
  | fin q => decide (q ≠ 0)
  | inf _ => true

/-- Unary minus. -/
def neg : JSNum → JSNum
  | nan => nan
  | fin q => fin (-q)
  | inf b => inf (!b)

/-- Number addition `a + b`. -/
def add : JSNum → JSNum → JSNum
  | nan, _ => nan
  | _, nan => nan
  | fin a, fin b => fin (a + b)
  | fin _, inf b => inf b
  | inf a, fin _ => inf a
  | inf a, inf b => if a = b then inf a else nan

/-- The expression `x || 0` on a number. -/
def orZero (x : JSNum) : JSNum :=
  if x.truthy then x else fin 0

end JSNum

namespace JSVal

/-- ToBoolean. -/
def truthy : JSVal → Bool
  | undefined => false
  | null => false
  | bool b => b
  | num x => x.truthy
  | str s => !s.isEmpty

end JSVal

/-! ## ToNumber on strings (StringToNumber) -/

/-- The code units of StrWhiteSpaceChar: WhiteSpace and LineTerminator. -/
def isStrWhiteSpace (c : Nat) : Bool :=
  c == 9 || c == 10 || c == 11 || c == 12 || c == 13 || c == 32 || c == 160 ||
  c == 5760 || (decide (8192 ≤ c) && decide (c ≤ 8202)) || c == 8232 || c == 8233 ||
  c == 8239 || c == 8287 || c == 12288 || c == 65279

/-- Strip leading and trailing StrWhiteSpace. -/
def trimWhiteSpace (s : JSString) : JSString :=
  ((s.dropWhile isStrWhiteSpace).reverse.dropWhile isStrWhiteSpace).reverse

/-- The value of a code unit as a digit of the given base, if it is one. -/
def digitValue (base c : Nat) : Option Nat :=
  let v :=
    if 48 ≤ c ∧ c ≤ 57 then some (c - 48)
    else if 97 ≤ c ∧ c ≤ 102 then some (c - 87)
    else if 65 ≤ c ∧ c ≤ 70 then some (c - 55)
    else none
  v.bind fun d => if d < base then some d else none

/-- The value of a string of digits of the given base read from the accumulator `acc`;
`none` when a code unit is not a digit. -/
def digitsFrom (base : Nat) (acc : Nat) : List Nat → Option Nat
  | [] => some acc
  | c :: cs =>
    match digitValue base c with
    | some d => digitsFrom base (acc * base + d) cs
    | none => none

/-- The value of a non-empty string of digits of the given base. -/
def digitsValue (base : Nat) (s : List Nat) : Option Nat :=
  if s = [] then none else digitsFrom base 0 s

/-- The value of a possibly empty string of decimal digits. -/
def optDigitsValue (s : List Nat) : Option Nat :=
  digitsFrom 10 0 s

/-- SignedInteger of an ExponentPart: optional sign, then decimal digits. -/
def signedInteger (s : List Nat) : Option Int :=
  match s with
  | 43 :: ds => (digitsValue 10 ds).map fun n => (n : Int)
  | 45 :: ds => (digitsValue 10 ds).map fun n => -(n : Int)
  | ds => (digitsValue 10 ds).map fun n => (n : Int)

/-- The part of a list before the first element satisfying `p`, and the part after it
(`none` when no element satisfies `p`). -/
def splitAtFirst (p : Nat → Bool) : List Nat → List Nat × Option (List Nat)
  | [] => ([], none)
  | c :: cs =>
    if p c then ([], some cs)
    else ((c :: (splitAtFirst p cs).1), (splitAtFirst p cs).2)

/-- The exact value `m * 10 ^ e` of a decimal literal with digits `m` and exponent `e`. -/
def scaleByPow10 (m : Nat) (e : Int) : ℚ :=
  if 0 ≤ e then ((m * 10 ^ e.toNat : Nat) : ℚ) else mkRat (m : Int) (10 ^ (-e).toNat)

/-- StrUnsignedDecimalLiteral other than `Infinity`:
`digits . digits? exp?`, `. digits exp?` or `digits exp?`. -/
def unsignedDecimal (s : List Nat) : Option ℚ :=
  let (mant, expo) := splitAtFirst (fun c => c == 101 || c == 69) s
  let (ip, fp) := splitAtFirst (fun c => c == 46) mant
  let e : Option Int :=
    match expo with
    | none => some 0
    | some es => signedInteger es
  let digits : Option (Nat × Nat) :=
    match fp with
    | none => (digitsValue 10 ip).map fun n => (n, 0)
    | some fs =>
      if ip = [] ∧ fs = [] then none
      else (optDigitsValue (ip ++ fs)).map fun n => (n, fs.length)
  match digits, e with
  | some (m, k), some x => some (scaleByPow10 m (x - k))
  | _, _ => none

/-- StrDecimalLiteral: an optional sign, then `Infinity` or an unsigned decimal literal. -/
def strDecimalLiteral (s : List Nat) : JSNum :=
  let (negative, body) :=
    match s with
    | 43 :: r => (false, r)
    | 45 :: r => (true, r)
    | r => (false, r)
  if body = utf16 "Infinity" then JSNum.inf negative
  else
    match unsignedDecimal body with
    | some q => JSNum.fin (if negative then -q else q)
    | none => JSNum.nan

/-- NonDecimalIntegerLiteral (`0x`, `0o`, `0b` prefixes, either case), if the string
starts with such a prefix. -/
def nonDecimalLiteral (s : List Nat) : Option JSNum :=
  let lit (base : Nat) (ds : List Nat) : JSNum :=
    match digitsValue base ds with
    | some n => JSNum.fin (n : ℚ)
    | none => JSNum.nan
  match s with
  | 48 :: 120 :: ds => some (lit 16 ds)
  | 48 :: 88 :: ds => some (lit 16 ds)
  | 48 :: 111 :: ds => some (lit 8 ds)
  | 48 :: 79 :: ds => some (lit 8 ds)
  | 48 :: 98 :: ds => some (lit 2 ds)
  | 48 :: 66 :: ds => some (lit 2 ds)
  | _ => none

/-- StringToNumber: white space is trimmed, the empty string is `0`, anything that is
not a StrNumericLiteral is `NaN`. -/
def stringToNumber (s : JSString) : JSNum :=
  let t := trimWhiteSpace s
  if t = [] then JSNum.fin 0
  else
    match nonDecimalLiteral t with
    | some x => x
    | none => strDecimalLiteral t

/-- ToNumber, the unary `+` of the source. -/
def toNumber : JSVal → JSNum
  | JSVal.undefined => JSNum.nan
  | JSVal.null => JSNum.fin 0
  | JSVal.bool true => JSNum.fin 1
  | JSVal.bool false => JSNum.fin 0
  | JSVal.num x => x
  | JSVal.str s => stringToNumber s

/-! ## The loader: `loadAndProcessData` -/

/-- One row of `XLSX.utils.sheet_to_json`: the three consumed columns. -/
structure RawRecord where
  Term : Option JSString
  Department : Option JSString
  Student_Count : JSVal
  deriving DecidableEq

/-- A cleaned record, the result of the `raw.map` callback. -/
structure CleanedRecord where
  Term : Option JSString
  Department : JSString
  Students : JSNum
  deriving DecidableEq

/-- The value of a text cell: `undefined` when absent. -/
def cellVal : Option JSString → JSVal
  | none => JSVal.undefined
  | some s => JSVal.str s

/-- The field `Department: row.Department || "Unknown"`. -/
def cleanDepartment (c : Option JSString) : JSString :=
  match c with
  | some s => if (cellVal (some s)).truthy then s else utf16 "Unknown"
  | none => utf16 "Unknown"

/-- The field `Students: +row.Student_Count || 0`. -/
def cleanStudents (v : JSVal) : JSNum :=
  (toNumber v).orZero

/-- The callback of `raw.map`. -/
def cleanRecord (row : RawRecord) : CleanedRecord :=
  { Term := row.Term
    Department := cleanDepartment row.Department
    Students := cleanStudents row.Student_Count }

/-- The spread of `new Set(values)`: every value is added unless already present, and
iteration is in insertion order. -/
def setOf {α : Type} [DecidableEq α] (values : List α) : List α :=
  values.foldl (fun acc v => if v ∈ acc then acc else acc ++ [v]) []

/-- The code-unit order `a < b` of two strings. -/
def strLt : JSString → JSString → Bool
  | _, [] => false
  | [], _ :: _ => true
  | a :: as, b :: bs => decide (a < b) || (a == b && strLt as bs)

/-- The default sort order, `SortCompare(x, y) ≤ 0`: `undefined` sorts last, strings
by code units. -/
def sortLe : Option JSString → Option JSString → Bool
  | _, none => true
  | none, some _ => false
  | some a, some b => !strLt b a

/-- Insertion of `x` before the first element it does not sort after. -/
def insertSorted (x : Option JSString) : List (Option JSString) → List (Option JSString)
  | [] => [x]
  | y :: ys => if sortLe x y then x :: y :: ys else y :: insertSorted x ys

/-- The method `Array.prototype.sort()` without a comparator (a stable sort). -/
def jsSort (xs : List (Option JSString)) : List (Option JSString) :=
  xs.foldr insertSorted []

/-- One step of the grouping loop of `d3.rollup`: `groups.get(key)` is pushed to when it
exists, and a new group is appended otherwise. -/
def groupInto {κ α : Type} [DecidableEq κ] (groups : List (κ × List α)) (key : κ) (value : α) :
    List (κ × List α) :=
  match groups with
  | [] => [(key, [value])]
  | (k, vs) :: rest =>
    if k = key then (k, vs ++ [value]) :: rest else (k, vs) :: groupInto rest key value

/-- The grouping loop of `d3.rollup` for one key function: an insertion-ordered map from
keys to the values that have them, in input order. -/
def groupBy {κ α : Type} [DecidableEq κ] (keyof : α → κ) (values : List α) :
    List (κ × List α) :=
  values.foldl (fun groups v => groupInto groups (keyof v) v) []

/-- The function `d3.sum(values, valueof)`: the values that coerce to a non-zero number
are added up from `0`. -/
def d3sum {α : Type} (values : List α) (valueof : α → JSNum) : JSNum :=
  values.foldl (fun sum v => if (valueof v).truthy then sum.add (valueof v) else sum)
    (JSNum.fin 0)

/-- The Aggregation Matrix as `d3.rollup` returns it: a map of maps. -/
abbrev Nested := List (Option JSString × List (JSString × JSNum))

/-- The call `d3.rollup(cleaned, v => d3.sum(v, d => d.Students), d => d.Term,
d => d.Department)`. -/
def rollup (cleaned : List CleanedRecord) : Nested :=
  (groupBy (fun d => d.Term) cleaned).map fun g =>
    (g.1, (groupBy (fun d => d.Department) g.2).map fun h =>
      (h.1, d3sum h.2 (fun d => d.Students)))

/-- The method `Map.prototype.get`: `none` is `undefined`. -/
def mapGet {κ β : Type} [DecidableEq κ] (m : List (κ × β)) (key : κ) : Option β :=
  match m with
  | [] => none
  | (k, v) :: rest => if k = key then some v else mapGet rest key

/-- The Aggregation Matrix as a function: `nested.get(term)?.get(dep)`, `none` being
`undefined`. -/
def nestedGet (nested : Nested) (term : Option JSString) (dep : JSString) : Option JSNum :=
  (mapGet nested term).bind fun m => mapGet m dep

/-- The expression `nested.get(term)?.get(dep) || 0`. -/
def cellValue (nested : Nested) (term : Option JSString) (dep : JSString) : JSNum :=
  match nestedGet nested term dep with
  | some x => x.orZero
  | none => JSNum.fin 0

/-- An ordinary object: its own properties, in insertion order. -/
abbrev Obj := List (JSString × JSVal)

/-- Assignment to an existing or new own property. -/
def defineOwn (o : Obj) (key : JSString) (v : JSVal) : Obj :=
  match o with
  | [] => [(key, v)]
  | (k, w) :: rest => if k = key then (k, v) :: rest else (k, w) :: defineOwn rest key v

/-- The assignment `o[key] = v` of a primitive value to an ordinary object: for the key
`__proto__` the assignment reaches the accessor inherited from `Object.prototype`,
whose setter ignores a primitive, so that no own property is created. -/
def setProp (o : Obj) (key : JSString) (v : JSVal) : Obj :=
  if key = utf16 "__proto__" then o else defineOwn o key v

/-- The own property keys of an object (`Object.keys`, order aside). -/
def ownKeys (o : Obj) : List JSString :=
  o.map Prod.fst

/-- The own property `o[key]` of an object, `none` when there is none. -/
def getOwn (o : Obj) (key : JSString) : Option JSVal :=
  mapGet o key

/-- The callback of `terms.map`: the pivoted row of one term. -/
def pivotRow (nested : Nested) (departments : List JSString) (term : Option JSString) : Obj :=
  departments.foldl (fun row dep => setProp row dep (JSVal.num (cellValue nested term dep)))
    [(utf16 "Term", cellVal term)]

/-- The array `cleaned` of `loadAndProcessData`. -/
def cleanedOf (raw : List RawRecord) : List CleanedRecord :=
  raw.map cleanRecord

/-- The Term Set `[...new Set(cleaned.map(d => d.Term))].sort()`. -/
def termSet (raw : List RawRecord) : List (Option JSString) :=
  jsSort (setOf ((cleanedOf raw).map fun d => d.Term))

/-- The Department Set `[...new Set(cleaned.map(d => d.Department))]`. -/
def departmentSet (raw : List RawRecord) : List JSString :=
  setOf ((cleanedOf raw).map fun d => d.Department)

/-- The Aggregation Matrix `nested` of `loadAndProcessData`. -/
def nestedOf (raw : List RawRecord) : Nested :=
  rollup (cleanedOf raw)

/-- The array `data` of pivoted rows. -/
def pivotedRows (raw : List RawRecord) : List Obj :=
  (termSet raw).map (pivotRow (nestedOf raw) (departmentSet raw))

/-- The function `loadAndProcessData`, from the parsed sheet on: the two arguments it
passes to `drawStreamgraph`. -/
def loadAndProcessData (raw : List RawRecord) : List Obj × List JSString :=
  (pivotedRows raw, departmentSet raw)

/-! ## The renderer: `drawStreamgraph` -/

/-- The strict default sort order on cells: code-unit order between two strings, and
every string before `undefined`. -/
def termLt (a b : Option JSString) : Prop :=
  match a, b with
  | some s, some t => strLt s t = true
  | some _, none => True
  | none, _ => False

/-- The three-row scenario of the specification. -/
def scenario : List RawRecord :=
  [⟨some (utf16 "F23"), some (utf16 "CS"), JSVal.str (utf16 "10")⟩,
   ⟨some (utf16 "F23"), some (utf16 "Math"), JSVal.str (utf16 "5")⟩,
   ⟨some (utf16 "S24"), some (utf16 "CS"), JSVal.str (utf16 "8")⟩]

/-- The cleaned records of one (Term, Department) pair. -/
def recordsOf (cleaned : List CleanedRecord) (term : Option JSString) (dep : JSString) :
    List CleanedRecord :=
  cleaned.filter fun r => decide (r.Term = term ∧ r.Department = dep)

/-- The distinct elements of a list in the order of their first occurrences. -/
def firstOccurrences {α : Type} [DecidableEq α] : List α → List α
  | [] => []
  | x :: xs => x :: (firstOccurrences xs).filter (fun y => decide (y ≠ x))

/-- The Department Set as the specification reads it: the distinct cleaned Departments
in first-occurrence order. -/
def referenceDepartments (raw : List RawRecord) : List JSString :=
  firstOccurrences ((cleanedOf raw).map fun d => d.Department)

/-- The entry of the reference pivot: the sum of `Students` over the cleaned records of the
(Term, Department) pair, `0` when there is none. -/
def referenceSum (cleaned : List CleanedRecord) (term : Option JSString) (dep : JSString) :
    JSNum :=
  ((recordsOf cleaned term dep).map fun r => r.Students).foldl JSNum.add (JSNum.fin 0)

/-- A row of a reference pivot for a term, with the entries `value`: its `Term` is the
term, and its value at every department of the Department Set is the entry. -/
def IsReferenceRow (raw : List RawRecord) (value : Option JSString → JSString → JSNum)
    (term : Option JSString) (row : Obj) : Prop :=
  getOwn row (utf16 "Term") = some (cellVal term) ∧
  ∀ d ∈ referenceDepartments raw, getOwn row d = some (JSVal.num (value term d))

/-- A reference pivot with the entries `value`: one reference row per distinct Term, in
ascending Term order. -/
def IsReferencePivot (raw : List RawRecord) (value : Option JSString → JSString → JSNum)
    (rows : List Obj) : Prop :=
  ∃ terms : List (Option JSString),
    terms.Pairwise termLt ∧ (∀ t, t ∈ terms ↔ ∃ r ∈ raw, r.Term = t) ∧
    List.Forall₂ (IsReferenceRow raw value) terms rows

/-- A one-row sheet whose Department is named `__proto__`. -/
def departmentNamedProto : List RawRecord :=
  [⟨some (utf16 "F23"), some (utf16 "__proto__"), JSVal.num (JSNum.fin 5)⟩]

/-- A sheet whose one cell adds `Infinity` and `-Infinity`. -/
def opposingInfinities : List RawRecord :=
  [⟨some (utf16 "F23"), some (utf16 "CS"), JSVal.str (utf16 "Infinity")⟩,
   ⟨some (utf16 "F23"), some (utf16 "CS"), JSVal.str (utf16 "-Infinity")⟩]

theorem strLt_asymm : ∀ (a b : JSString), strLt a b = true → strLt b a = false := by
  intro a
  induction a with
  | nil => intro b _; cases b <;> rfl
  | cons x xs ih =>
    intro b h
    cases b with
    | nil => simp [strLt] at h
    | cons y ys =>
      simp only [strLt, Bool.or_eq_true, decide_eq_true_eq, Bool.and_eq_true, beq_iff_eq] at h
      simp only [strLt, Bool.or_eq_false_iff, decide_eq_false_iff_not, Bool.and_eq_false_imp,
        beq_iff_eq]
      rcases h with h | ⟨h1, h2⟩
      · exact ⟨by omega, fun e => by omega⟩
      · exact ⟨by omega, fun _ => ih ys h2⟩

theorem strLt_trans : ∀ (a b c : JSString), strLt a b = true → strLt b c = true →
    strLt a c = true := by
  intro a
  induction a with
  | nil =>
    intro b c h1 h2
    cases c with
    | nil => cases b <;> simp [strLt] at h2
    | cons z zs => rfl
  | cons x xs ih =>
    intro b c h1 h2
    cases b with
    | nil => simp [strLt] at h1
    | cons y ys =>
      cases c with
      | nil => simp [strLt] at h2
      | cons z zs =>
        simp only [strLt, Bool.or_eq_true, decide_eq_true_eq, Bool.and_eq_true, beq_iff_eq]
          at h1 h2 ⊢
        rcases h1 with h1 | ⟨e1, h1⟩ <;> rcases h2 with h2 | ⟨e2, h2⟩
        · left; omega
        · left; omega
        · left; omega
        · right; exact ⟨by omega, ih ys zs h1 h2⟩

theorem strLt_trichotomy : ∀ (a b : JSString), strLt a b = false → strLt b a = false →
    a = b := by
  intro a
  induction a with
  | nil =>
    intro b h1 _
    cases b with
    | nil => rfl
    | cons y ys => simp [strLt] at h1
  | cons x xs ih =>
    intro b h1 h2
    cases b with
    | nil => simp [strLt] at h2
    | cons y ys =>
      simp only [strLt, Bool.or_eq_false_iff, decide_eq_false_iff_not, Bool.and_eq_false_imp,
        beq_iff_eq] at h1 h2
      have e : x = y := by omega
      subst e
      rw [ih ys (h1.2 rfl) (h2.2 rfl)]


/-! ## The default sort -/

theorem sortLe_total (a b : Option JSString) : sortLe a b = true ∨ sortLe b a = true := by
  cases a with
  | none => right; cases b <;> rfl
  | some s =>
    cases b with
    | none => left; rfl
    | some t =>
      simp only [sortLe, Bool.not_eq_true']
      cases h : strLt t s with
      | false => left; rfl
      | true => right; exact strLt_asymm t s h

theorem sortLe_trans (a b c : Option JSString) (h1 : sortLe a b = true)
    (h2 : sortLe b c = true) : sortLe a c = true := by
  cases c with
  | none => cases a <;> rfl
  | some u =>
    cases b with
    | none => simp [sortLe] at h2
    | some t =>
      cases a with
      | none => simp [sortLe] at h1
      | some s =>
        simp only [sortLe, Bool.not_eq_true'] at h1 h2 ⊢
        cases h : strLt u s with
        | false => rfl
        | true =>
          exfalso
          cases h3 : strLt s t with
          | true =>
            have := strLt_trans u s t h h3
            simp [this] at h2
          | false =>
            have e := strLt_trichotomy s t h3 h1
            subst e
            simp [h] at h2

theorem mem_insertSorted (x y : Option JSString) (l : List (Option JSString)) :
    y ∈ insertSorted x l ↔ y = x ∨ y ∈ l := by
  induction l with
  | nil => simp [insertSorted]
  | cons z zs ih =>
    simp only [insertSorted]
    split_ifs
    · simp
    · simp [ih]; tauto

theorem perm_insertSorted (x : Option JSString) (l : List (Option JSString)) :
    (insertSorted x l).Perm (x :: l) := by
  induction l with
  | nil => simp [insertSorted]
  | cons z zs ih =>
    simp only [insertSorted]
    split_ifs
    · exact List.Perm.refl _
    · exact (List.Perm.cons z ih).trans (List.Perm.swap x z zs)

theorem pairwise_insertSorted (x : Option JSString) (l : List (Option JSString))
    (h : l.Pairwise (fun a b => sortLe a b = true)) :
    (insertSorted x l).Pairwise (fun a b => sortLe a b = true) := by
  induction l with
  | nil => simp [insertSorted]
  | cons z zs ih =>
    simp only [insertSorted]
    rw [List.pairwise_cons] at h
    split_ifs with hx
    · refine List.Pairwise.cons ?_ (List.Pairwise.cons h.1 h.2)
      intro b hb
      rcases List.mem_cons.1 hb with e | hb
      · rw [e]; exact hx
      · exact sortLe_trans x z b hx (h.1 b hb)
    · refine List.Pairwise.cons ?_ (ih h.2)
      intro b hb
      rcases (mem_insertSorted x b zs).1 hb with e | hb
      · rw [e]
        rcases sortLe_total x z with h' | h'
        · exact absurd h' hx
        · exact h'
      · exact h.1 b hb

theorem perm_jsSort (l : List (Option JSString)) : (jsSort l).Perm l := by
  induction l with
  | nil => exact List.Perm.refl _
  | cons x xs ih =>
    show (insertSorted x (jsSort xs)).Perm (x :: xs)
    exact (perm_insertSorted x _).trans (List.Perm.cons x ih)

theorem pairwise_jsSort (l : List (Option JSString)) :
    (jsSort l).Pairwise (fun a b => sortLe a b = true) := by
  induction l with
  | nil => exact List.Pairwise.nil
  | cons x xs ih => exact pairwise_insertSorted x _ ih

/-! ## The spread of a `Set` -/

theorem mem_setOf_foldl {α : Type} [DecidableEq α] (l acc : List α) (x : α) :
    x ∈ l.foldl (fun acc v => if v ∈ acc then acc else acc ++ [v]) acc ↔ x ∈ acc ∨ x ∈ l := by
  induction l generalizing acc with
  | nil => simp
  | cons y ys ih =>
    simp only [List.foldl_cons, ih, List.mem_cons]
    split_ifs with hy
    · constructor
      · rintro (h | h)
        · exact Or.inl h
        · exact Or.inr (Or.inr h)
      · rintro (h | h | h)
        · exact Or.inl h
        · exact Or.inl (h ▸ hy)
        · exact Or.inr h
    · simp only [List.mem_append, List.mem_singleton]; tauto

theorem nodup_setOf_foldl {α : Type} [DecidableEq α] (l acc : List α) (h : acc.Nodup) :
    (l.foldl (fun acc v => if v ∈ acc then acc else acc ++ [v]) acc).Nodup := by
  induction l generalizing acc with
  | nil => simpa using h
  | cons y ys ih =>
    simp only [List.foldl_cons]
    apply ih
    split_ifs with hy
    · exact h
    · rw [List.nodup_append]
      refine ⟨h, List.nodup_singleton y, ?_⟩
      intro a ha hb
      rw [List.mem_singleton] at hb
      exact hy (hb ▸ ha)

theorem mem_setOf {α : Type} [DecidableEq α] (l : List α) (x : α) : x ∈ setOf l ↔ x ∈ l := by
  simp [setOf, mem_setOf_foldl]

theorem nodup_setOf {α : Type} [DecidableEq α] (l : List α) : (setOf l).Nodup :=
  nodup_setOf_foldl l [] List.nodup_nil

/-! ## The Term Set -/

theorem mem_termSet (raw : List RawRecord) (t : Option JSString) :
    t ∈ termSet raw ↔ ∃ r ∈ raw, r.Term = t := by
  unfold termSet
  rw [(perm_jsSort _).mem_iff, mem_setOf]
  simp [cleanedOf, cleanRecord]

theorem nodup_termSet (raw : List RawRecord) : (termSet raw).Nodup :=
  (perm_jsSort _).nodup_iff.2 (nodup_setOf _)

theorem termLt_of_sortLe (a b : Option JSString) (h : sortLe a b = true) (hne : a ≠ b) :
    termLt a b := by
  cases a with
  | none => cases b with
    | none => exact absurd rfl hne
    | some t => simp [sortLe] at h
  | some s => cases b with
    | none => trivial
    | some t =>
      simp only [sortLe, Bool.not_eq_true'] at h
      show strLt s t = true
      cases h2 : strLt s t with
      | true => rfl
      | false => exact absurd (congrArg some (strLt_trichotomy s t h2 h)) hne

theorem termSet_ascending (raw : List RawRecord) : (termSet raw).Pairwise termLt := by
  have h1 := pairwise_jsSort (setOf ((cleanedOf raw).map fun d => d.Term))
  have h2 : (jsSort (setOf ((cleanedOf raw).map fun d => d.Term))).Nodup := nodup_termSet raw
  have h3 := h1.and h2
  exact h3.imp (fun {a b} h => termLt_of_sortLe a b h.1 h.2)

/-! ## Cleaning -/

theorem orZero_eq (x : JSNum) :
    x.orZero = if x = JSNum.nan ∨ x = JSNum.fin 0 then JSNum.fin 0 else x := by
  cases x with
  | nan => simp [JSNum.orZero, JSNum.truthy]
  | fin q =>
    by_cases h : q = 0
    · simp [JSNum.orZero, JSNum.truthy, h]
    · simp [JSNum.orZero, JSNum.truthy, h]
  | inf b => simp [JSNum.orZero, JSNum.truthy]

/-- C4: the cleaned `Students` is the numeric coercion of `Student_Count` when that is a
number other than zero, and `0` otherwise (`NaN` or zero); so `"42"` gives `42`, each of
`null`, `undefined` and `"abc"` gives `0`, and the number `-3` gives `-3`. -/
theorem cleanRecord_students_coercion :
    (∀ r : RawRecord,
      (cleanRecord r).Students =
        if toNumber r.Student_Count = JSNum.nan ∨ toNumber r.Student_Count = JSNum.fin 0
        then JSNum.fin 0 else toNumber r.Student_Count) ∧
    (∀ t d, (cleanRecord ⟨t, d, JSVal.str (utf16 "42")⟩).Students = JSNum.fin 42) ∧
    (∀ t d, (cleanRecord ⟨t, d, JSVal.null⟩).Students = JSNum.fin 0) ∧
    (∀ t d, (cleanRecord ⟨t, d, JSVal.undefined⟩).Students = JSNum.fin 0) ∧
    (∀ t d, (cleanRecord ⟨t, d, JSVal.str (utf16 "abc")⟩).Students = JSNum.fin 0) ∧
    (∀ t d, (cleanRecord ⟨t, d, JSVal.num (JSNum.fin (-3))⟩).Students = JSNum.fin (-3)) := by
  refine ⟨fun r => orZero_eq _, ?_, ?_, ?_, ?_, ?_⟩ <;> intro t d <;>
    simp only [cleanRecord] <;> decide

/-- C5: when every `Term` is a string, the Term Set is strictly ascending in the code-unit
order, has no duplicates, and holds exactly the `Term` values of the input. -/
theorem termSet_strictly_sorted (raw : List RawRecord) (hstr : ∀ r ∈ raw, r.Term ≠ none) :
    (termSet raw).Pairwise
      (fun a b => ∃ s t, a = some s ∧ b = some t ∧ strLt s t = true) ∧
    (termSet raw).Nodup ∧
    ∀ t, t ∈ termSet raw ↔ ∃ r ∈ raw, r.Term = t := by
  refine ⟨?_, nodup_termSet raw, mem_termSet raw⟩
  refine (termSet_ascending raw).imp_of_mem ?_
  intro a b ha hb hab
  obtain ⟨r, hr, ea⟩ := (mem_termSet raw a).1 ha
  obtain ⟨r2, hr2, eb⟩ := (mem_termSet raw b).1 hb
  have ha2 := hstr r hr
  have hb2 := hstr r2 hr2
  rw [ea] at ha2
  rw [eb] at hb2
  cases a with
  | none => exact absurd rfl ha2
  | some s =>
    cases b with
    | none => exact absurd rfl hb2
    | some t => exact ⟨s, t, rfl, rfl, hab⟩

/-- C5 at the three-row scenario, whose Term `F23` repeats: the Term Set is
`["F23", "S24"]`. -/
theorem termSet_strictly_sorted_witness :
    termSet scenario = [some (utf16 "F23"), some (utf16 "S24")] ∧
    ((termSet scenario).Pairwise
      (fun a b => ∃ s t, a = some s ∧ b = some t ∧ strLt s t = true) ∧
    (termSet scenario).Nodup ∧
    ∀ t, t ∈ termSet scenario ↔ ∃ r ∈ scenario, r.Term = t) :=
  ⟨by decide, termSet_strictly_sorted scenario (by decide)⟩

/-! ## Grouping and summation -/

theorem getOwn_defineOwn (o : Obj) (k k' : JSString) (v : JSVal) :
    getOwn (defineOwn o k v) k' = if k = k' then some v else getOwn o k' := by
  induction o with
  | nil => by_cases h : k = k' <;> simp [defineOwn, getOwn, mapGet, h]
  | cons p ps ih =>
    obtain ⟨a, w⟩ := p
    unfold getOwn at ih ⊢
    by_cases h1 : a = k
    · subst h1
      by_cases h2 : a = k' <;> simp [defineOwn, mapGet, h2]
    · by_cases h2 : a = k'
      · subst h2
        have h3 : ¬ k = a := fun e => h1 e.symm
        simp [defineOwn, mapGet, h1, h3]
      · simp [defineOwn, mapGet, h1, h2, ih]

theorem getOwn_setProp (o : Obj) (k k' : JSString) (v : JSVal) :
    getOwn (setProp o k v) k' =
      if k = k' ∧ k ≠ utf16 "__proto__" then some v else getOwn o k' := by
  unfold setProp
  by_cases hp : k = utf16 "__proto__"
  · simp [hp]
  · simp [hp, getOwn_defineOwn]

theorem getOwn_foldl_setProp (V : JSString → JSVal) (depts : List JSString) (o : Obj)
    (k : JSString) :
    getOwn (depts.foldl (fun row dep => setProp row dep (V dep)) o) k =
      if k ∈ depts ∧ k ≠ utf16 "__proto__" then some (V k) else getOwn o k := by
  induction depts generalizing o with
  | nil => simp
  | cons d ds ih =>
    rw [List.foldl_cons, ih, getOwn_setProp]
    by_cases h1 : k ∈ ds ∧ k ≠ utf16 "__proto__"
    · have h2 : k ∈ d :: ds ∧ k ≠ utf16 "__proto__" := ⟨List.mem_cons_of_mem d h1.1, h1.2⟩
      rw [if_pos h1, if_pos h2]
    · rw [if_neg h1]
      by_cases h3 : d = k ∧ d ≠ utf16 "__proto__"
      · have h2 : k ∈ d :: ds ∧ k ≠ utf16 "__proto__" :=
          ⟨h3.1 ▸ List.mem_cons_self d ds, h3.1 ▸ h3.2⟩
        rw [if_pos h3, if_pos h2, h3.1]
      · have h2 : ¬ (k ∈ d :: ds ∧ k ≠ utf16 "__proto__") := by
          rintro ⟨hm, hne⟩
          rcases List.mem_cons.1 hm with e | hm
          · exact h3 ⟨e.symm, e ▸ hne⟩
          · exact h1 ⟨hm, hne⟩
        rw [if_neg h3, if_neg h2]

theorem getOwn_pivotRow (nested : Nested) (depts : List JSString) (t : Option JSString)
    (k : JSString) :
    getOwn (pivotRow nested depts t) k =
      if k ∈ depts ∧ k ≠ utf16 "__proto__" then some (JSVal.num (cellValue nested t k))
      else if k = utf16 "Term" then some (cellVal t) else none := by
  unfold pivotRow
  rw [getOwn_foldl_setProp (fun dep => JSVal.num (cellValue nested t dep))]
  by_cases h : k = utf16 "Term"
  · simp [getOwn, mapGet, h]
  · have h2 : ¬ utf16 "Term" = k := fun e => h e.symm
    simp [getOwn, mapGet, h, h2]

theorem mem_ownKeys_iff (o : Obj) (k : JSString) : k ∈ ownKeys o ↔ getOwn o k ≠ none := by
  unfold ownKeys getOwn
  induction o with
  | nil => simp [mapGet]
  | cons p ps ih =>
    obtain ⟨a, w⟩ := p
    by_cases h : a = k
    · simp [mapGet, h]
    · have h2 : ¬ k = a := fun e => h e.symm
      simp only [List.map_cons, List.mem_cons, h2, false_or, mapGet, h, if_false]
      exact ih

theorem mem_ownKeys_pivotRow (nested : Nested) (depts : List JSString) (t : Option JSString)
    (k : JSString) :
    k ∈ ownKeys (pivotRow nested depts t) ↔
      k = utf16 "Term" ∨ (k ∈ depts ∧ k ≠ utf16 "__proto__") := by
  rw [mem_ownKeys_iff, getOwn_pivotRow]
  by_cases h1 : k ∈ depts ∧ k ≠ utf16 "__proto__"
  · simp [h1]
  · rw [if_neg h1]
    by_cases h2 : k = utf16 "Term"
    · simp [h2]
    · simp [h1, h2]

/-! ## The Department Set -/

theorem mem_departmentSet (raw : List RawRecord) (d : JSString) :
    d ∈ departmentSet raw ↔ ∃ r ∈ raw, cleanDepartment r.Department = d := by
  unfold departmentSet
  rw [mem_setOf]
  simp [cleanedOf, cleanRecord]

theorem cleanDepartment_eq (c : Option JSString) (d : JSString) (hd : d ≠ utf16 "Unknown")
    (hd2 : d ≠ []) :
    cleanDepartment c = d ↔ c = some d := by
  cases c with
  | none =>
    simp only [cleanDepartment]
    constructor
    · intro h; exact absurd h.symm hd
    · intro h; cases h
  | some s =>
    simp only [cleanDepartment, cellVal, JSVal.truthy]
    cases s with
    | nil =>
      simp only [List.isEmpty_nil, Bool.not_true, Bool.false_eq_true, if_false]
      constructor
      · intro h; exact absurd h.symm hd
      · intro h
        exact absurd (Option.some.inj h).symm hd2
    | cons x xs => simp

/-! ## The pivot against the reference pivot -/

theorem not_mem_departmentSet (raw : List RawRecord) (d : JSString)
    (hd : d ≠ utf16 "Unknown") (hd2 : d ≠ []) (h : ∀ r ∈ raw, r.Department ≠ some d) :
    d ∉ departmentSet raw := by
  rw [mem_departmentSet]
  rintro ⟨r, hr, e⟩
  exact h r hr ((cleanDepartment_eq _ d hd hd2).1 e)

/-- When `Infinity` and `-Infinity` meet in one cell their sum is `NaN`, and the pivoted
row holds `0` there (`NaN || 0`), not the sum. -/
theorem pivot_opposing_infinities :
    pivotedRows opposingInfinities =
      [[(utf16 "Term", JSVal.str (utf16 "F23")), (utf16 "CS", JSVal.num (JSNum.fin 0))]] ∧
    referenceSum (cleanedOf opposingInfinities) (some (utf16 "F23")) (utf16 "CS") = JSNum.nan ∧
    ¬ IsReferencePivot opposingInfinities (referenceSum (cleanedOf opposingInfinities))
      (pivotedRows opposingInfinities) := by
  have h : pivotedRows opposingInfinities =
      [[(utf16 "Term", JSVal.str (utf16 "F23")),
        (utf16 "CS", JSVal.num (JSNum.fin 0))]] := by
    with_unfolding_all decide
  have h2 : referenceSum (cleanedOf opposingInfinities) (some (utf16 "F23")) (utf16 "CS") =
      JSNum.nan := by
    with_unfolding_all decide
  refine ⟨h, h2, ?_⟩
  rintro ⟨terms, _, _, hf⟩
  rw [h] at hf
  cases hf with
  | @cons t _ _ _ hrow _ =>
    have h1 := hrow.1
    have h3 := hrow.2 (utf16 "CS") (by decide)
    cases t with
    | none => simp [getOwn, mapGet, cellVal] at h1
    | some s =>
      have hs : s = utf16 "F23" := by
        simp only [getOwn, mapGet, cellVal, if_true, Option.some.injEq, JSVal.str.injEq] at h1
        exact h1.symm
      rw [hs, h2] at h3
      revert h3
      decide

/-- C6, as stated, fails: for a Department named `__proto__` the assignment
`row["__proto__"] = 5` creates no property, so the row has the key `Term` only, while
`__proto__` is in the Department Set. -/
theorem keys_department_named_proto :
    (loadAndProcessData departmentNamedProto).2 = [utf16 "__proto__"] ∧
    (loadAndProcessData departmentNamedProto).1.map ownKeys = [[utf16 "Term"]] ∧
    ¬ (∀ row ∈ (loadAndProcessData departmentNamedProto).1, ∀ k,
        k ∈ ownKeys row ↔
          (k = utf16 "Term" ∨ k ∈ (loadAndProcessData departmentNamedProto).2)) := by
  show departmentSet departmentNamedProto = _ ∧
    (pivotedRows departmentNamedProto).map ownKeys = _ ∧
    ¬ (∀ row ∈ pivotedRows departmentNamedProto, ∀ k,
        k ∈ ownKeys row ↔ (k = utf16 "Term" ∨ k ∈ departmentSet departmentNamedProto))
  have h1 : departmentSet departmentNamedProto = [utf16 "__proto__"] := by decide
  have h2 : pivotedRows departmentNamedProto = [[(utf16 "Term", JSVal.str (utf16 "F23"))]] := by
    with_unfolding_all decide
  refine ⟨h1, by rw [h2]; rfl, ?_⟩
  intro h
  have h3 := (h _ (by rw [h2]; exact List.mem_singleton.2 rfl) (utf16 "__proto__")).2
    (Or.inr (by rw [h1]; exact List.mem_singleton.2 rfl))
  revert h3
  decide

/-- C6, amended: when no Department is named `__proto__`, the keys of every pivoted row are
`Term` and the departments of the Department Set, and no other. -/
theorem pivotedRow_keys (raw : List RawRecord)
    (hproto : ∀ r ∈ raw, r.Department ≠ some (utf16 "__proto__")) :
    ∀ row ∈ (loadAndProcessData raw).1, ∀ k,
      k ∈ ownKeys row ↔ (k = utf16 "Term" ∨ k ∈ (loadAndProcessData raw).2) := by
  show ∀ row ∈ pivotedRows raw, ∀ k,
    k ∈ ownKeys row ↔ (k = utf16 "Term" ∨ k ∈ departmentSet raw)
  intro row hrow k
  obtain ⟨t, _, e⟩ := List.mem_map.1 hrow
  rw [← e, mem_ownKeys_pivotRow]
  have hP : utf16 "__proto__" ∉ departmentSet raw :=
    not_mem_departmentSet raw _ (by decide) (by decide) hproto
  constructor
  · rintro (h | h)
    · exact Or.inl h
    · exact Or.inr h.1
  · rintro (h | h)
    · exact Or.inl h
    · exact Or.inr ⟨h, fun e2 => hP (e2 ▸ h)⟩

/-- C6 at the three-row scenario, whose row of `S24` has no record for `Math`. -/
theorem pivotedRow_keys_witness :
    (loadAndProcessData scenario).1.map ownKeys =
      [[utf16 "Term", utf16 "CS", utf16 "Math"], [utf16 "Term", utf16 "CS", utf16 "Math"]] ∧
    ∀ row ∈ (loadAndProcessData scenario).1, ∀ k,
      k ∈ ownKeys row ↔ (k = utf16 "Term" ∨ k ∈ (loadAndProcessData scenario).2) :=
  ⟨by with_unfolding_all decide, pivotedRow_keys scenario (by decide)⟩

/-! ## Missing Departments -/

end SVGStreamGraph
